import Mathlib

/-!
Verification of the text-to-vCard core of `src/app.py`: the phone normalizer
(`normalize_phone`), the contact parser (`parse_contacts`) and the vCard 3.0
serializer (`to_vcard`).

Strings are modelled as lists of characters (`Str := List Char`).  The Python
text primitives are embedded on the ASCII fragment the program is specified
over: `str.strip` removes leading and trailing whitespace characters,
`str.splitlines` splits on the newline character, and the regular-expression
digit class of `re.sub` is the class of ASCII digits.
-/

/-- Strings are modelled as lists of characters. -/
abbrev Str := List Char

/-- The apostrophe character (code point 39), used as a quote inside the two
warning messages of `parse_contacts`. -/
def quoteMark : Char := Char.ofNat 39

/-- Python `str.strip` (src/app.py line 23 and line 50): drop whitespace from
both ends of the string. -/
def pyStrip (s : Str) : Str :=
  ((s.dropWhile Char.isWhitespace).reverse.dropWhile Char.isWhitespace).reverse

/-- Python `re.sub(r"\D", "", phone)` (src/app.py line 26): keep exactly the
digit characters of the string, in order. -/
def digitsOnly (s : Str) : Str := s.filter Char.isDigit

/-- `normalize_phone` (src/app.py lines 10-41).  `none` models the Python
`None` check on line 20; the branches follow lines 31-41 literally. -/
def normalize_phone : Option Str → Str
  | none => []
  | some raw_phone =>
    let phone := pyStrip raw_phone
    let digits := digitsOnly phone
    if phone.head? = some '+' then
      '+' :: digits
    else if digits.length = 11 ∧ digits.head? = some '8' then
      '+' :: '7' :: digits.tail
    else if digits.length = 11 ∧ digits.head? = some '7' then
      '+' :: digits
    else if digits ≠ [] then
      '+' :: digits
    else
      []

/-- The warning of src/app.py line 65, for a trailing name line with no
following phone line. -/
def warnDangling (name : Str) : Str :=
  "Строка с именем без телефона пропущена: ".toList ++ quoteMark :: name ++ [quoteMark]

/-- The warning of src/app.py line 70, for a phone line whose normalization
came back empty. -/
def warnBadPhone (name phone : Str) : Str :=
  "Не удалось распознать телефон для: ".toList ++ quoteMark :: name
    ++ quoteMark :: " (строка: ".toList ++ quoteMark :: phone ++ [quoteMark, ')']

/-- The while-loop of `parse_contacts` (src/app.py lines 56-73), as structural
recursion over the remaining non-empty lines: a lone final line is the
dangling-name case (lines 63-66), otherwise the two leading lines form a
candidate pair (lines 58-62 and 68-73). -/
def parseLoop : List Str → List (Str × Str) × List Str
  | [] => ([], [])
  | [name] => ([], [warnDangling name])
  | name :: phone :: rest =>
    let norm_phone := normalize_phone (some phone)
    let r := parseLoop rest
    if norm_phone = [] then
      (r.1, warnBadPhone name phone :: r.2)
    else
      ((name, norm_phone) :: r.1, r.2)

/-- Lines 50-51 of src/app.py: split the input on newlines, strip every line,
drop the lines that became empty. -/
def linesOf (text : Str) : List Str :=
  ((text.splitOn '\n').map pyStrip).filter (fun ln => !ln.isEmpty)

/-- `parse_contacts` (src/app.py lines 44-75). -/
def parse_contacts (text : Str) : List (Str × Str) × List Str :=
  parseLoop (linesOf text)

/-- The five lines of one vCard block (src/app.py lines 82-88). -/
def blockLines (e : Str × Str) : List Str :=
  ["BEGIN:VCARD".toList, "VERSION:3.0".toList,
   "FN:".toList ++ e.1, "TEL;TYPE=CELL:".toList ++ e.2, "END:VCARD".toList]

/-- `to_vcard` (src/app.py lines 78-90): join the five lines of each block
with a newline, then join the blocks with a newline. -/
def to_vcard (entries : List (Str × Str)) : Str :=
  List.intercalate ['\n'] (entries.map (fun e => List.intercalate ['\n'] (blockLines e)))

/-- The canonical phone form of the spec glossary: a plus sign followed by one
or more ASCII digits and nothing else. -/
def isCanonical : Str → Bool
  | [] => false
  | c :: ds => c == '+' && !ds.isEmpty && ds.all Char.isDigit

/-- Candidate pairs: consume the line list two at a time, in order; a dangling
final line forms no pair. -/
def chunkPairs : List Str → List (Str × Str)
  | name :: phone :: rest => (name, phone) :: chunkPairs rest
  | _ => []

/-- The contacts contributed by a list of candidate pairs: the pairs whose
phone line normalizes to a non-empty string, with the normalized phone. -/
def contactsOf (ps : List (Str × Str)) : List (Str × Str) :=
  ps.filterMap (fun np =>
    let q := normalize_phone (some np.2)
    if q = [] then none else some (np.1, q))

/-- The warnings contributed by a list of candidate pairs: one per pair whose
phone line normalizes to the empty string. -/
def pairWarns (ps : List (Str × Str)) : List Str :=
  ps.filterMap (fun np =>
    if normalize_phone (some np.2) = [] then some (warnBadPhone np.1 np.2) else none)

/-- The warning contributed by the dangling last line of an odd-length line
list (and nothing for an even-length one). -/
def oddTail : List Str → List Str
  | [] => []
  | [name] => [warnDangling name]
  | _ :: _ :: rest => oddTail rest

example : normalize_phone (some ("+7 925 198-90-91".toList)) = "+79251989091".toList := by decide
example : normalize_phone (some ("89251989091".toList)) = "+79251989091".toList := by decide
example : normalize_phone (some ("12345".toList)) = "+12345".toList := by decide
example : normalize_phone (some []) = [] := by decide
example : normalize_phone (some ['+']) = ['+'] := by decide
example : parse_contacts [] = ([], []) := by decide
example : parse_contacts ("Alice\n+1 555 0100\nBob".toList) =
    ([("Alice".toList, "+15550100".toList)], [warnDangling ("Bob".toList)]) := by decide
example : parse_contacts ("Alice\nnotaphone".toList) =
    ([], [warnBadPhone ("Alice".toList) ("notaphone".toList)]) := by decide
example : parse_contacts ("Alice\n+".toList) = ([("Alice".toList, ['+'])], []) := by decide
example : to_vcard [("Azim".toList, "+79251989091".toList)] =
    "BEGIN:VCARD\nVERSION:3.0\nFN:Azim\nTEL;TYPE=CELL:+79251989091\nEND:VCARD".toList := by decide

theorem intercalate_two (sep a b : Str) (t : List Str) :
    List.intercalate sep (a :: b :: t) = a ++ sep ++ List.intercalate sep (b :: t) := by
  simp [List.intercalate, List.append_assoc]

theorem intercalate_append_ne (sep : Str) (xs ys : List Str) (hx : xs ≠ []) (hy : ys ≠ []) :
    List.intercalate sep (xs ++ ys) = List.intercalate sep xs ++ sep ++ List.intercalate sep ys := by
  induction xs with
  | nil => cases hx rfl
  | cons a xs ih =>
    cases xs with
    | nil =>
      cases ys with
      | nil => cases hy rfl
      | cons b t => simp [intercalate_two, List.intercalate, List.append_assoc]
    | cons a2 xs2 =>
      rw [List.cons_append, List.cons_append, intercalate_two, ← List.cons_append,
        ih (by simp), intercalate_two]
      simp [List.append_assoc]

theorem intercalate_map_flat (sep : Str) (xss : List (List Str)) (h : ∀ xs ∈ xss, xs ≠ []) :
    List.intercalate sep (xss.map (List.intercalate sep)) = List.intercalate sep xss.flatten := by
  induction xss with
  | nil => rfl
  | cons a xss ih =>
    cases xss with
    | nil => simp [List.intercalate]
    | cons b xss2 =>
      have hb : (b :: xss2).flatten ≠ [] := by
        have hbne : b ≠ [] := h b (by simp)
        cases b with
        | nil => cases hbne rfl
        | cons c cs => simp
      have ih2 := ih (fun xs hxs => h xs (by simp [hxs]))
      calc List.intercalate sep ((a :: b :: xss2).map (List.intercalate sep))
          = List.intercalate sep a ++ sep
              ++ List.intercalate sep ((b :: xss2).map (List.intercalate sep)) := by
            rw [List.map_cons, List.map_cons]
            exact intercalate_two sep (List.intercalate sep a) (List.intercalate sep b)
              (xss2.map (List.intercalate sep))
        _ = List.intercalate sep a ++ sep ++ List.intercalate sep (b :: xss2).flatten := by
            rw [ih2]
        _ = List.intercalate sep (a ++ (b :: xss2).flatten) :=
            (intercalate_append_ne sep a (b :: xss2).flatten (h a (by simp)) hb).symm
        _ = List.intercalate sep (a :: b :: xss2).flatten := by
            simp [List.flatten_cons]

theorem to_vcard_flat (l : List (Str × Str)) :
    to_vcard l = List.intercalate ['\n'] (l.flatMap blockLines) := by
  have h1 : to_vcard l
      = List.intercalate ['\n'] ((l.map blockLines).map (List.intercalate ['\n'])) := by
    rw [to_vcard, List.map_map]
    rfl
  rw [h1, intercalate_map_flat ['\n'] (l.map blockLines)
    (by intro xs hxs; rw [List.mem_map] at hxs; obtain ⟨e, _, rfl⟩ := hxs; simp [blockLines]),
    List.flatMap_def]

theorem blockLines_no_newline {l : List (Str × Str)}
    (hfree : ∀ e ∈ l, '\n' ∉ e.1 ∧ '\n' ∉ e.2) :
    ∀ line ∈ l.flatMap blockLines, '\n' ∉ line := by
  intro line hline
  rw [List.mem_flatMap] at hline
  obtain ⟨e, he, hbl⟩ := hline
  simp only [blockLines, List.mem_cons, List.not_mem_nil, or_false] at hbl
  rcases hbl with rfl | rfl | rfl | rfl | rfl
  · decide
  · decide
  · intro hmem
    rcases List.mem_append.mp hmem with hmem | hmem
    · exact absurd hmem (by decide)
    · exact (hfree e he).1 hmem
  · intro hmem
    rcases List.mem_append.mp hmem with hmem | hmem
    · exact absurd hmem (by decide)
    · exact (hfree e he).2 hmem
  · decide

theorem vcard_splitOn (l : List (Str × Str)) (hl : l ≠ [])
    (hfree : ∀ e ∈ l, '\n' ∉ e.1 ∧ '\n' ∉ e.2) :
    List.splitOn '\n' (to_vcard l) = l.flatMap blockLines := by
  rw [to_vcard_flat]
  refine List.splitOn_intercalate (l.flatMap blockLines) '\n' (blockLines_no_newline hfree) ?_
  cases l with
  | nil => cases hl rfl
  | cons e t => simp [blockLines]

theorem ws_not_digit {c : Char} (h : c.isWhitespace = true) : c.isDigit = false := by
  have h4 : c = ' ' ∨ c = '\t' ∨ c = '\r' ∨ c = '\n' := by
    simpa [Char.isWhitespace, or_assoc] using h
  rcases h4 with h | h | h | h <;> subst h <;> decide

theorem normalize_phone_some (raw : Str) :
    normalize_phone (some raw) =
      (if (pyStrip raw).head? = some '+' then
        '+' :: digitsOnly (pyStrip raw)
      else if (digitsOnly (pyStrip raw)).length = 11 ∧
          (digitsOnly (pyStrip raw)).head? = some '8' then
        '+' :: '7' :: (digitsOnly (pyStrip raw)).tail
      else if (digitsOnly (pyStrip raw)).length = 11 ∧
          (digitsOnly (pyStrip raw)).head? = some '7' then
        '+' :: digitsOnly (pyStrip raw)
      else if digitsOnly (pyStrip raw) ≠ [] then
        '+' :: digitsOnly (pyStrip raw)
      else
        []) := rfl

theorem digitsOnly_dropWhile (s : Str) :
    digitsOnly (s.dropWhile Char.isWhitespace) = digitsOnly s := by
  conv_rhs => rw [← List.takeWhile_append_dropWhile Char.isWhitespace s]
  rw [digitsOnly, digitsOnly, List.filter_append]
  have h : List.filter Char.isDigit (s.takeWhile Char.isWhitespace) = [] := by
    rw [List.filter_eq_nil_iff]
    intro a ha
    simp [ws_not_digit (List.mem_takeWhile_imp ha)]
  rw [h, List.nil_append]

theorem digitsOnly_strip (s : Str) : digitsOnly (pyStrip s) = digitsOnly s := by
  have hrev : ∀ u : Str, digitsOnly u.reverse = (digitsOnly u).reverse := by
    intro u
    simp [digitsOnly]
  calc digitsOnly (((s.dropWhile Char.isWhitespace).reverse.dropWhile Char.isWhitespace).reverse)
      = (digitsOnly ((s.dropWhile Char.isWhitespace).reverse.dropWhile Char.isWhitespace)).reverse :=
        hrev _
    _ = (digitsOnly ((s.dropWhile Char.isWhitespace).reverse)).reverse := by
        rw [digitsOnly_dropWhile]
    _ = ((digitsOnly (s.dropWhile Char.isWhitespace)).reverse).reverse := by rw [hrev]
    _ = digitsOnly (s.dropWhile Char.isWhitespace) := List.reverse_reverse _
    _ = digitsOnly s := digitsOnly_dropWhile s

theorem pyStrip_head_plus {s : Str} (h : s.head? = some '+') :
    (pyStrip s).head? = some '+' := by
  obtain ⟨t, rfl⟩ : ∃ t, s = '+' :: t := by
    cases s with
    | nil => simp at h
    | cons c t =>
      simp only [List.head?_cons, Option.some.injEq] at h
      exact ⟨t, by rw [h]⟩
  rw [pyStrip, List.dropWhile_cons]
  rw [show Char.isWhitespace '+' = false from by decide]
  simp only [Bool.false_eq_true, if_false, List.reverse_cons, List.dropWhile_append]
  by_cases he : ((t.reverse.dropWhile Char.isWhitespace).isEmpty : Bool) = true
  · rw [if_pos he]
    decide
  · rw [if_neg he]
    rw [List.reverse_append]
    rfl

theorem pyStrip_eq_self {s : Str} (h : ∀ c ∈ s, c.isWhitespace = false) : pyStrip s = s := by
  have hdw : ∀ u : Str, (∀ c ∈ u, c.isWhitespace = false) →
      u.dropWhile Char.isWhitespace = u := by
    intro u hu
    cases u with
    | nil => rfl
    | cons a t =>
      rw [List.dropWhile_cons, hu a (by simp)]
      simp
  rw [pyStrip, hdw s h, hdw s.reverse (fun c hc => h c (List.mem_reverse.mp hc)),
    List.reverse_reverse]

theorem normalize_shape (r : Option Str) :
    normalize_phone r = [] ∨
      ∃ ds, normalize_phone r = '+' :: ds ∧ ∀ ch ∈ ds, ch.isDigit = true := by
  match r with
  | none => exact Or.inl rfl
  | some raw =>
    have hd : ∀ ch ∈ digitsOnly (pyStrip raw), ch.isDigit = true := by
      intro ch hch
      exact (List.mem_filter.mp hch).2
    rw [normalize_phone_some]
    split_ifs with h1 h2 h3 h4
    · exact Or.inr ⟨digitsOnly (pyStrip raw), rfl, hd⟩
    · refine Or.inr ⟨'7' :: (digitsOnly (pyStrip raw)).tail, rfl, ?_⟩
      intro ch hch
      rcases List.mem_cons.mp hch with rfl | hch2
      · decide
      · exact hd ch (List.mem_of_mem_tail hch2)
    · exact Or.inr ⟨digitsOnly (pyStrip raw), rfl, hd⟩
    · exact Or.inr ⟨digitsOnly (pyStrip raw), rfl, hd⟩
    · exact Or.inl rfl

theorem twoStepInduction {P : List Str → Prop} (h0 : P []) (h1 : ∀ a, P [a])
    (h2 : ∀ a b l, P l → P (a :: b :: l)) : ∀ l, P l
  | [] => h0
  | [a] => h1 a
  | a :: b :: l => h2 a b l (twoStepInduction h0 h1 h2 l)

theorem contactsOf_nil : contactsOf [] = [] := rfl

theorem pairWarns_nil : pairWarns [] = [] := rfl

theorem parseLoop_cons_cons (name phone : Str) (rest : List Str) :
    parseLoop (name :: phone :: rest) =
      if normalize_phone (some phone) = [] then
        ((parseLoop rest).1, warnBadPhone name phone :: (parseLoop rest).2)
      else
        ((name, normalize_phone (some phone)) :: (parseLoop rest).1, (parseLoop rest).2) := rfl

theorem contactsOf_cons (np : Str × Str) (ps : List (Str × Str)) :
    contactsOf (np :: ps) =
      if normalize_phone (some np.2) = [] then contactsOf ps
      else (np.1, normalize_phone (some np.2)) :: contactsOf ps := by
  by_cases h : normalize_phone (some np.2) = [] <;> simp [contactsOf, h]

theorem pairWarns_cons (np : Str × Str) (ps : List (Str × Str)) :
    pairWarns (np :: ps) =
      if normalize_phone (some np.2) = [] then warnBadPhone np.1 np.2 :: pairWarns ps
      else pairWarns ps := by
  by_cases h : normalize_phone (some np.2) = [] <;> simp [pairWarns, h]

theorem parseLoop_eq (ls : List Str) :
    parseLoop ls = (contactsOf (chunkPairs ls), pairWarns (chunkPairs ls) ++ oddTail ls) := by
  induction ls using twoStepInduction with
  | h0 => rfl
  | h1 name => rfl
  | h2 name phone rest ih =>
    rw [parseLoop_cons_cons, ih,
      show chunkPairs (name :: phone :: rest) = (name, phone) :: chunkPairs rest from rfl,
      show oddTail (name :: phone :: rest) = oddTail rest from rfl,
      contactsOf_cons, pairWarns_cons]
    by_cases h : normalize_phone (some phone) = [] <;> simp [h]

theorem chunkPairs_mem (ls : List Str) :
    ∀ np ∈ chunkPairs ls, np.1 ∈ ls ∧ np.2 ∈ ls := by
  induction ls using twoStepInduction with
  | h0 =>
    intro np h
    cases h
  | h1 name =>
    intro np h
    rw [show chunkPairs [name] = [] from rfl] at h
    cases h
  | h2 name phone rest ih =>
    intro np h
    rw [show chunkPairs (name :: phone :: rest) = (name, phone) :: chunkPairs rest from rfl] at h
    rcases List.mem_cons.mp h with rfl | h2
    · exact ⟨by simp, by simp⟩
    · obtain ⟨ha, hb⟩ := ih np h2
      exact ⟨by simp [ha], by simp [hb]⟩

theorem contactsOf_shape (ps : List (Str × Str)) :
    ∀ c ∈ contactsOf ps, ∃ np, np ∈ ps ∧ normalize_phone (some np.2) ≠ [] ∧
      c = (np.1, normalize_phone (some np.2)) := by
  induction ps with
  | nil =>
    intro c hc
    rw [contactsOf_nil] at hc
    cases hc
  | cons np ps ih =>
    intro c hc
    rw [contactsOf_cons] at hc
    by_cases h : normalize_phone (some np.2) = []
    · rw [if_pos h] at hc
      obtain ⟨np2, h1, h2, h3⟩ := ih c hc
      exact ⟨np2, by simp [h1], h2, h3⟩
    · rw [if_neg h] at hc
      rcases List.mem_cons.mp hc with rfl | hc2
      · exact ⟨np, by simp, h, rfl⟩
      · obtain ⟨np2, h1, h2, h3⟩ := ih c hc2
        exact ⟨np2, by simp [h1], h2, h3⟩

theorem contactsOf_fst_sublist (ps : List (Str × Str)) :
    List.Sublist ((contactsOf ps).map Prod.fst) (ps.map Prod.fst) := by
  induction ps with
  | nil =>
    rw [contactsOf_nil]
  | cons np ps ih =>
    rw [contactsOf_cons]
    by_cases h : normalize_phone (some np.2) = []
    · rw [if_pos h, List.map_cons]
      exact List.Sublist.cons np.1 ih
    · rw [if_neg h, List.map_cons, List.map_cons]
      exact List.Sublist.cons₂ np.1 ih

theorem chunkPairs_fst_sublist (ls : List Str) :
    List.Sublist ((chunkPairs ls).map Prod.fst) ls := by
  induction ls using twoStepInduction with
  | h0 =>
    rw [show chunkPairs [] = [] from rfl]
    simp
  | h1 name =>
    rw [show chunkPairs [name] = [] from rfl]
    simp
  | h2 name phone rest ih =>
    rw [show chunkPairs (name :: phone :: rest) = (name, phone) :: chunkPairs rest from rfl,
      List.map_cons]
    exact List.Sublist.cons₂ name (List.Sublist.cons phone ih)

theorem oddTail_odd (ls : List Str) (h : ls.length % 2 = 1) :
    oddTail ls = [warnDangling (ls.getLastD [])] := by
  induction ls using twoStepInduction with
  | h0 => simp at h
  | h1 name => rfl
  | h2 a b l ih =>
    have hlen : l.length % 2 = 1 := by
      rw [List.length_cons, List.length_cons] at h
      omega
    have hlne : l ≠ [] := by
      intro hnil
      rw [hnil] at hlen
      simp at hlen
    rw [show oddTail (a :: b :: l) = oddTail l from rfl, ih hlen]
    obtain ⟨x, hx⟩ : ∃ x, l.getLast? = some x := by
      cases hl : l.getLast? with
      | none => exact absurd (List.getLast?_eq_none_iff.mp hl) hlne
      | some x => exact ⟨x, rfl⟩
    rw [List.getLastD_cons, List.getLastD_cons, List.getLastD_eq_getLast?,
      List.getLastD_eq_getLast?, hx]
    simp

theorem chunkPairs_dropLast_odd (ls : List Str) (h : ls.length % 2 = 1) :
    chunkPairs ls = chunkPairs ls.dropLast := by
  induction ls using twoStepInduction with
  | h0 => simp at h
  | h1 name => rfl
  | h2 a b l ih =>
    have hlen : l.length % 2 = 1 := by
      rw [List.length_cons, List.length_cons] at h
      omega
    have hlne : l ≠ [] := by
      intro hnil
      rw [hnil] at hlen
      simp at hlen
    have hdl : (a :: b :: l).dropLast = a :: b :: l.dropLast := by
      cases l with
      | nil => cases hlne rfl
      | cons c t => rfl
    rw [show chunkPairs (a :: b :: l) = (a, b) :: chunkPairs l from rfl, ih hlen, hdl,
      show chunkPairs (a :: b :: l.dropLast) = (a, b) :: chunkPairs l.dropLast from rfl]

theorem linesOf_mem_ne_nil {text ln : Str} (h : ln ∈ linesOf text) : ln ≠ [] := by
  rw [linesOf, List.mem_filter] at h
  intro hnil
  rw [hnil] at h
  simpa using h.2

theorem splitOnP_pieces (p : Char → Bool) (s : Str) :
    ∀ piece ∈ s.splitOnP p, ∀ c ∈ piece, p c = false := by
  induction s with
  | nil =>
    intro piece hp c hc
    rw [List.splitOnP_nil] at hp
    simp only [List.mem_cons, List.not_mem_nil, or_false] at hp
    subst hp
    cases hc
  | cons a t ih =>
    intro piece hp c hc
    rw [List.splitOnP_cons] at hp
    by_cases hpa : p a = true
    · rw [if_pos hpa] at hp
      rcases List.mem_cons.mp hp with rfl | hp2
      · cases hc
      · exact ih piece hp2 c hc
    · rw [if_neg hpa] at hp
      obtain ⟨h0, rest, heq⟩ : ∃ h0 rest, t.splitOnP p = h0 :: rest := by
        cases htp : t.splitOnP p with
        | nil => exact absurd htp (List.splitOnP_ne_nil p t)
        | cons h0 rest => exact ⟨h0, rest, rfl⟩
      rw [heq, List.modifyHead_cons] at hp
      rcases List.mem_cons.mp hp with rfl | hp2
      · rcases List.mem_cons.mp hc with rfl | hc2
        · simpa using hpa
        · exact ih h0 (by rw [heq]; exact List.mem_cons_self h0 rest) c hc2
      · exact ih piece (by rw [heq]; exact List.mem_cons_of_mem h0 hp2) c hc

theorem splitOn_newline_pieces {text piece : Str} (h : piece ∈ text.splitOn '\n') :
    '\n' ∉ piece := by
  intro hc
  have h2 : piece ∈ text.splitOnP (fun c => c == '\n') := by
    rw [show text.splitOn '\n' = text.splitOnP (fun c => c == '\n') from rfl] at h
    exact h
  have h3 := splitOnP_pieces (fun c => c == '\n') text piece h2 '\n' hc
  simp at h3

theorem pyStrip_subset {s : Str} : ∀ c ∈ pyStrip s, c ∈ s := by
  intro c hc
  rw [pyStrip, List.mem_reverse] at hc
  have h1 : c ∈ (s.dropWhile Char.isWhitespace).reverse :=
    List.dropWhile_subset Char.isWhitespace hc
  rw [List.mem_reverse] at h1
  exact List.dropWhile_subset Char.isWhitespace h1

theorem linesOf_no_newline {text ln : Str} (h : ln ∈ linesOf text) : '\n' ∉ ln := by
  rw [linesOf, List.mem_filter] at h
  obtain ⟨h1, -⟩ := h
  rw [List.mem_map] at h1
  obtain ⟨piece, hpiece, rfl⟩ := h1
  intro hc
  exact splitOn_newline_pieces hpiece (pyStrip_subset _ hc)

theorem name_infix_warnDangling (name : Str) :
    List.IsInfix name (warnDangling name) := by
  refine ⟨"Строка с именем без телефона пропущена: ".toList ++ [quoteMark], [quoteMark], ?_⟩
  rw [warnDangling]
  simp [List.append_assoc]

theorem name_infix_warnBadPhone (name phone : Str) :
    List.IsInfix name (warnBadPhone name phone) := by
  refine ⟨"Не удалось распознать телефон для: ".toList ++ [quoteMark],
    quoteMark :: " (строка: ".toList ++ quoteMark :: phone ++ [quoteMark, ')'], ?_⟩
  rw [warnBadPhone]
  simp [List.append_assoc]

theorem phone_infix_warnBadPhone (name phone : Str) :
    List.IsInfix phone (warnBadPhone name phone) := by
  refine ⟨"Не удалось распознать телефон для: ".toList ++ quoteMark :: name
      ++ quoteMark :: " (строка: ".toList ++ [quoteMark], [quoteMark, ')'], ?_⟩
  rw [warnBadPhone]
  simp [List.append_assoc]

/-- Claim C1, counterexample: the input consisting of the line Alice followed
by a lone plus-sign line yields a contact whose phone is the bare plus sign,
which does not match the canonical form of a plus sign followed by one or more
digits.  So not every parsed contact has a canonical phone. -/
theorem C1_counterexample :
    ¬ (∀ text : Str, ∀ c ∈ (parse_contacts text).1, c.1 ≠ [] ∧ isCanonical c.2 = true) := by
  intro hall
  have h := hall ("Alice\n+".toList) (("Alice".toList, ['+'])) (by decide)
  exact absurd h.2 (by decide)

/-- Claim C1 as amended: every (name, phone) pair in the contacts list
returned by parse_contacts has a non-empty name, and a phone consisting of a
plus sign followed by zero or more ASCII digits and nothing else. -/
theorem C1_contact_invariant (text : Str) (c : Str × Str)
    (hc : c ∈ (parse_contacts text).1) :
    c.1 ≠ [] ∧ ∃ ds, c.2 = '+' :: ds ∧ ∀ ch ∈ ds, ch.isDigit = true := by
  have hc2 : c ∈ contactsOf (chunkPairs (linesOf text)) := by
    have he : (parse_contacts text).1 = contactsOf (chunkPairs (linesOf text)) := by
      rw [parse_contacts, parseLoop_eq]
    rw [← he]
    exact hc
  obtain ⟨np, hmem, hne, rfl⟩ := contactsOf_shape _ c hc2
  refine ⟨linesOf_mem_ne_nil (chunkPairs_mem _ np hmem).1, ?_⟩
  rcases normalize_shape (some np.2) with h | ⟨ds, heq, hds⟩
  · exact absurd h hne
  · exact ⟨ds, heq, hds⟩

/-- Witness for C1_contact_invariant on the input Alice with phone line
+1 555 0100. -/
theorem C1_contact_invariant_witness :
    (("Alice".toList, "+15550100".toList) ∈
      (parse_contacts ("Alice\n+1 555 0100".toList)).1) ∧
    ("Alice".toList ≠ [] ∧ ∃ ds, "+15550100".toList = '+' :: ds ∧
      ∀ ch ∈ ds, ch.isDigit = true) :=
  ⟨by decide, C1_contact_invariant ("Alice\n+1 555 0100".toList)
    (("Alice".toList, "+15550100".toList)) (by decide)⟩

/-- Claim C2: to_vcard of the empty contact list is the empty string, and for
every non-empty contact list (with newline-free fields, as parse_contacts
produces), splitting the output on line breaks yields exactly the five block
lines BEGIN:VCARD, VERSION:3.0, FN:name, TEL;TYPE=CELL:phone, END:VCARD of
each contact, in list order, with no extra leading, trailing or separating
segment. -/
theorem C2_vcard_blocks :
    to_vcard [] = [] ∧
    ∀ l : List (Str × Str), l ≠ [] → (∀ e ∈ l, '\n' ∉ e.1 ∧ '\n' ∉ e.2) →
      List.splitOn '\n' (to_vcard l) = l.flatMap blockLines :=
  ⟨rfl, fun l hl hfree => vcard_splitOn l hl hfree⟩

/-- Witness for C2_vcard_blocks on the one-contact list (Azim, +79251989091). -/
theorem C2_vcard_blocks_witness :
    ([("Azim".toList, "+79251989091".toList)] ≠ ([] : List (Str × Str))) ∧
    List.splitOn '\n' (to_vcard [("Azim".toList, "+79251989091".toList)])
      = [("Azim".toList, "+79251989091".toList)].flatMap blockLines :=
  ⟨by decide,
   C2_vcard_blocks.2 [("Azim".toList, "+79251989091".toList)] (by decide) (by decide)⟩

/-- Claim C3: when the list of trimmed non-empty lines has odd length,
parse_contacts builds its contacts exactly from the complete pairs preceding
the dangling final name line, and its warnings are the pair warnings followed
by exactly one dangling-name warning, which contains that final line. -/
theorem C3_dangling (text : Str) (h : (linesOf text).length % 2 = 1) :
    (parse_contacts text).1 = contactsOf (chunkPairs (linesOf text).dropLast) ∧
    (parse_contacts text).2 =
      pairWarns (chunkPairs (linesOf text).dropLast)
        ++ [warnDangling ((linesOf text).getLastD [])] ∧
    List.IsInfix ((linesOf text).getLastD [])
      (warnDangling ((linesOf text).getLastD [])) := by
  refine ⟨?_, ?_, name_infix_warnDangling _⟩
  · show (parseLoop (linesOf text)).1 = _
    rw [parseLoop_eq]
    show contactsOf (chunkPairs (linesOf text)) = _
    rw [chunkPairs_dropLast_odd (linesOf text) h]
  · show (parseLoop (linesOf text)).2 = _
    rw [parseLoop_eq]
    show pairWarns (chunkPairs (linesOf text)) ++ oddTail (linesOf text) = _
    rw [chunkPairs_dropLast_odd (linesOf text) h, oddTail_odd (linesOf text) h]

/-- Witness for C3_dangling on the spec example Alice, +1 555 0100, Bob: one
contact (Alice, +15550100) and one warning mentioning Bob. -/
theorem C3_dangling_witness :
    (parse_contacts ("Alice\n+1 555 0100\nBob".toList)).1
      = [("Alice".toList, "+15550100".toList)] ∧
    (parse_contacts ("Alice\n+1 555 0100\nBob".toList)).2
      = [warnDangling ("Bob".toList)] ∧
    List.IsInfix ("Bob".toList) (warnDangling ("Bob".toList)) := by
  have h := C3_dangling ("Alice\n+1 555 0100\nBob".toList) (by decide)
  refine ⟨h.1.trans (by decide), h.2.1.trans (by decide), ?_⟩
  have h3 := h.2.2
  rw [show (linesOf ("Alice\n+1 555 0100\nBob".toList)).getLastD [] = "Bob".toList from
    by decide] at h3
  exact h3

/-- Claim C4: a candidate pair whose phone line normalizes to the empty string
produces exactly one warning containing both the name and the raw phone text,
adds no contact, and processing continues with the remaining lines. -/
theorem C4_bad_phone (name phone : Str) (rest : List Str)
    (h : normalize_phone (some phone) = []) :
    (parseLoop (name :: phone :: rest)).1 = (parseLoop rest).1 ∧
    (parseLoop (name :: phone :: rest)).2
      = warnBadPhone name phone :: (parseLoop rest).2 ∧
    List.IsInfix name (warnBadPhone name phone) ∧
    List.IsInfix phone (warnBadPhone name phone) := by
  rw [parseLoop_cons_cons, if_pos h]
  exact ⟨rfl, rfl, name_infix_warnBadPhone name phone, phone_infix_warnBadPhone name phone⟩

/-- Witness for C4_bad_phone on the spec example Alice, notaphone: no contact
and one warning mentioning both lines. -/
theorem C4_bad_phone_witness :
    parse_contacts ("Alice\nnotaphone".toList)
      = ([], [warnBadPhone ("Alice".toList) ("notaphone".toList)]) ∧
    List.IsInfix ("Alice".toList) (warnBadPhone ("Alice".toList) ("notaphone".toList)) ∧
    List.IsInfix ("notaphone".toList) (warnBadPhone ("Alice".toList) ("notaphone".toList)) := by
  have h := C4_bad_phone ("Alice".toList) ("notaphone".toList) [] (by decide)
  exact ⟨by decide, h.2.2.1, h.2.2.2⟩

/-- Claim C5: for every string that starts with a plus sign, normalize_phone
returns the plus sign followed by exactly the digit characters of the string
in order, even when there are none (bare plus). -/
theorem C5_plus_passthrough (s : Str) (h : s.head? = some '+') :
    normalize_phone (some s) = '+' :: digitsOnly s := by
  rw [normalize_phone_some, if_pos (pyStrip_head_plus h), digitsOnly_strip]

/-- Witness for C5_plus_passthrough on the bare plus and on the spec example
+7 925 198-90-91. -/
theorem C5_plus_passthrough_witness :
    (("+".toList).head? = some '+' ∧
      normalize_phone (some ("+".toList)) = '+' :: digitsOnly ("+".toList)) ∧
    (("+7 925 198-90-91".toList).head? = some '+' ∧
      normalize_phone (some ("+7 925 198-90-91".toList))
        = '+' :: digitsOnly ("+7 925 198-90-91".toList)) :=
  ⟨⟨by decide, C5_plus_passthrough ("+".toList) (by decide)⟩,
   ⟨by decide, C5_plus_passthrough ("+7 925 198-90-91".toList) (by decide)⟩⟩

/-- Claim C6: when the trimmed input does not start with a plus sign and its
digit subsequence has exactly 11 digits beginning with 8, normalize_phone
returns +7 followed by the last 10 of those digits. -/
theorem C6_trunk_eight (s : Str)
    (h1 : (pyStrip s).head? ≠ some '+')
    (h2 : (digitsOnly s).length = 11)
    (h3 : (digitsOnly s).head? = some '8') :
    normalize_phone (some s) = '+' :: '7' :: (digitsOnly s).tail := by
  rw [normalize_phone_some, digitsOnly_strip, if_neg h1, if_pos ⟨h2, h3⟩]

/-- Witness for C6_trunk_eight on the spec example 89251989091, whose result
is +79251989091. -/
theorem C6_trunk_eight_witness :
    ((pyStrip ("89251989091".toList)).head? ≠ some '+' ∧
      (digitsOnly ("89251989091".toList)).length = 11 ∧
      (digitsOnly ("89251989091".toList)).head? = some '8') ∧
    normalize_phone (some ("89251989091".toList)) = "+79251989091".toList :=
  ⟨⟨by decide, by decide, by decide⟩,
   (C6_trunk_eight ("89251989091".toList) (by decide) (by decide) (by decide)).trans
     (by decide)⟩

/-- Claim C7: parse_contacts is a total function: on every input it returns a
pair of a (possibly empty) contacts list and a (possibly empty) warnings list,
and on the empty input it returns the pair of empty lists. -/
theorem C7_total :
    parse_contacts [] = ([], []) ∧
    ∀ text : Str, ∃ cs ws, parse_contacts text = (cs, ws) :=
  ⟨rfl, fun text => ⟨(parse_contacts text).1, (parse_contacts text).2, rfl⟩⟩

/-- Claim C8: the contacts keep the relative order of their name lines in the
input (the warnings play no role in it), and to_vcard emits exactly one
five-line block per contact, in the same order, one block per contact. -/
theorem C8_order (text : Str) :
    List.Sublist (((parse_contacts text).1).map Prod.fst) (linesOf text) ∧
    ((parse_contacts text).1 = [] → to_vcard (parse_contacts text).1 = []) ∧
    ((parse_contacts text).1 ≠ [] →
      List.splitOn '\n' (to_vcard (parse_contacts text).1)
        = ((parse_contacts text).1).flatMap blockLines) := by
  have h1 : (parse_contacts text).1 = contactsOf (chunkPairs (linesOf text)) := by
    rw [parse_contacts, parseLoop_eq]
  refine ⟨?_, ?_, ?_⟩
  · rw [h1]
    exact (contactsOf_fst_sublist _).trans (chunkPairs_fst_sublist _)
  · intro hnil
    rw [hnil]
    rfl
  · intro hne
    apply vcard_splitOn _ hne
    intro e he
    rw [h1] at he
    obtain ⟨np, hmem, hneq, rfl⟩ := contactsOf_shape _ e he
    constructor
    · exact linesOf_no_newline (chunkPairs_mem _ np hmem).1
    · rcases normalize_shape (some np.2) with h | ⟨ds, heq, hds⟩
      · exact absurd h hneq
      · rw [heq]
        intro hmem2
        rcases List.mem_cons.mp hmem2 with hplus | hds2
        · exact absurd hplus (by decide)
        · exact absurd (hds '\n' hds2) (by decide)

/-- Witness for C8_order on the input Azim, +7 925 198-90-91. -/
theorem C8_order_witness :
    List.Sublist
      (((parse_contacts ("Azim\n+7 925 198-90-91".toList)).1).map Prod.fst)
      (linesOf ("Azim\n+7 925 198-90-91".toList)) ∧
    List.splitOn '\n' (to_vcard (parse_contacts ("Azim\n+7 925 198-90-91".toList)).1)
      = ((parse_contacts ("Azim\n+7 925 198-90-91".toList)).1).flatMap blockLines :=
  ⟨(C8_order ("Azim\n+7 925 198-90-91".toList)).1,
   (C8_order ("Azim\n+7 925 198-90-91".toList)).2.2 (by decide)⟩

/-- Claim C9: every string already in canonical form (a plus sign followed by
one or more ASCII digits) is a fixed point of normalize_phone. -/
theorem C9_canonical_fixed (p : Str) (h : isCanonical p = true) :
    normalize_phone (some p) = p := by
  obtain ⟨ds, rfl, hne, hds⟩ :
      ∃ ds, p = '+' :: ds ∧ ds ≠ [] ∧ ∀ ch ∈ ds, ch.isDigit = true := by
    cases p with
    | nil =>
      rw [show isCanonical [] = false from rfl] at h
      cases h
    | cons c ds =>
      rw [show isCanonical (c :: ds) = (c == '+' && !ds.isEmpty && ds.all Char.isDigit)
        from rfl] at h
      simp only [Bool.and_eq_true, beq_iff_eq, Bool.not_eq_true', List.all_eq_true] at h
      obtain ⟨⟨rfl, hne⟩, hall⟩ := h
      refine ⟨ds, rfl, ?_, ?_⟩
      · intro hnil
        rw [hnil] at hne
        simp at hne
      · intro ch hch
        exact hall ch hch
  have hnw : ∀ c ∈ ('+' :: ds), c.isWhitespace = false := by
    intro c hc
    rcases List.mem_cons.mp hc with rfl | hc2
    · decide
    · have hd := hds c hc2
      by_cases hw : c.isWhitespace = true
      · rw [ws_not_digit hw] at hd
        cases hd
      · simpa using hw
  have hstrip : pyStrip ('+' :: ds) = '+' :: ds := pyStrip_eq_self hnw
  rw [normalize_phone_some, hstrip,
    if_pos (show ('+' :: ds).head? = some '+' from rfl)]
  have hdig : digitsOnly ('+' :: ds) = ds := by
    rw [digitsOnly, List.filter_cons, show (Char.isDigit '+') = false from by decide]
    simp only [Bool.false_eq_true, if_false]
    exact List.filter_eq_self.mpr hds
  rw [hdig]

/-- Witness for C9_canonical_fixed on the spec example +79251989091. -/
theorem C9_canonical_fixed_witness :
    isCanonical ("+79251989091".toList) = true ∧
    normalize_phone (some ("+79251989091".toList)) = "+79251989091".toList :=
  ⟨by decide, C9_canonical_fixed ("+79251989091".toList) (by decide)⟩

/-- Claim C10: every normalize_phone result (also on the absent input) is
either empty or a plus sign followed by zero or more ASCII digits and nothing
else; the bare plus is a possible non-empty result, and parse_contacts treats
it as a successful normalization that produces a contact. -/
theorem C10_result_shape :
    (∀ r : Option Str, normalize_phone r = [] ∨
      ∃ ds, normalize_phone r = '+' :: ds ∧ ∀ ch ∈ ds, ch.isDigit = true) ∧
    normalize_phone (some ['+']) = ['+'] ∧
    parse_contacts ("Alice\n+".toList) = ([("Alice".toList, ['+'])], []) :=
  ⟨normalize_shape, by decide, by decide⟩
